import Mathlib

/-!
Verification development for the MacroScale game-capture repository.

Part 1 embeds `src/client/src/core/task_handler.rs`: a task orchestrator
owning a FIFO pending queue (`task_queue : VecDeque<Box<dyn Task>>`) and a
set of active execution handles (`handles : Vec<TaskHandle>`).

Part 2 embeds `src/client_backend/src/utils.rs`: Windows window/process
introspection helpers (`get_file_path_hwnd`, `is_game`, `hwnd_to_string`).

Modelling choices:
* A `Task` is abstract to the orchestrator: it only ever calls `data()`
  (the metadata descriptor) and `execute()` (the async body handed to
  `spawn_local`). We keep the descriptor and identify the spawned
  computation by a fresh spawn id recorded at `TaskHandle::create` time
  (mirroring the distinct `JoinHandle` returned by each `spawn_local`).
* `JoinHandle::is_finished` is a non-blocking poll of the runtime, so it is
  modelled as an oracle `fin : Nat → Bool` mapping a spawn id to its
  completion status at the moment the poll happens.
* OS calls in `utils.rs` are modelled by an environment record supplying
  their results; the byte-level processing the Rust code performs on those
  results is embedded faithfully (including UTF-8 lossy decoding).
-/

namespace MacroScale

/-- Embeds `TaskMeta` (from `src/client/src/base/task.rs`, used by the handler):
the immutable descriptor of a task; the orchestrator only reads `name`. -/
structure TaskMeta where
  name : String
deriving DecidableEq, Repr

/-- A `Box<dyn Task>` as seen by the orchestrator: the only capability the
handler consumes is `data()`, returning the descriptor.  The async body
produced by `execute()` is opaque; its runtime behaviour enters the model
through the `is_finished` oracle keyed by spawn id. -/
structure MTask where
  data : TaskMeta
deriving DecidableEq, Repr

/-- Embeds `TaskHandle { task_meta, handle: JoinHandle<()> }`: pairs the captured
descriptor with the runtime handle of the spawned computation.  The
`JoinHandle` is identified by the spawn id `handle : Nat`. -/
structure TaskHandle where
  task_meta : TaskMeta
  handle : Nat
deriving DecidableEq, Repr

/-- Embeds `TaskHandle::create`: captures `t.data().clone()` and spawns
`t.execute()` on the runtime, obtaining a fresh join handle (the spawn id
`id` supplied by the handler state). -/
def TaskHandle.create (t : MTask) (id : Nat) : TaskHandle :=
  { task_meta := t.data, handle := id }

/-- Embeds `TaskHandler { task_queue: VecDeque<Box<dyn Task>>, handles: Vec<TaskHandle> }`.
`nextId` models the runtime's supply of distinct join handles: each call to
`spawn_local` returns a handle never returned before. -/
structure TaskHandler where
  task_queue : List MTask
  handles : List TaskHandle
  nextId : Nat
deriving DecidableEq, Repr

namespace TaskHandler

/-- Embeds `TaskHandler::new()`. -/
def new : TaskHandler :=
  { task_queue := [], handles := [], nextId := 0 }

/-- Embeds `TaskHandler::add_task`: `self.task_queue.push_back(task)`. -/
def add_task (h : TaskHandler) (task : MTask) : TaskHandler :=
  { h with task_queue := h.task_queue ++ [task] }

/-- The loop body of `TaskHandler::run_tasks`:
`while let Some(t) = self.task_queue.pop_front() { let t_handle =
TaskHandle::create(t); self.handles.push(t_handle); }`, with the loop state
(queue front, handles, fresh-id supply) made explicit. -/
def drainLoop : List MTask → List TaskHandle → Nat → TaskHandler
  | [], hs, n => { task_queue := [], handles := hs, nextId := n }
  | t :: rest, hs, n => drainLoop rest (hs ++ [TaskHandle.create t n]) (n + 1)

/-- Embeds `TaskHandler::run_tasks`. -/
def run_tasks (h : TaskHandler) : TaskHandler :=
  drainLoop h.task_queue h.handles h.nextId

/-- Embeds `TaskHandler::clean_handles`:
`self.handles.retain(|handle| if handle.handle.is_finished() { false } else { true })`.
`fin` reports `is_finished()` for each join handle at poll time;
`Vec::retain` keeps, in order, exactly the elements on which the closure
returns `true`. -/
def clean_handles (fin : Nat → Bool) (h : TaskHandler) : TaskHandler :=
  { h with handles := h.handles.filter (fun hd => if fin hd.handle then false else true) }

/-- The fixed idle interval of the run loop:
`time::sleep(Duration::from_millis(50))`. -/
def sleepMillis : Nat := 50

/-- One iteration of the body of the `loop` in `TaskHandler::start`:
`self.run_tasks(); self.clean_handles(); time::sleep(...)`.  `fin` is the
completion status of each spawned computation when `clean_handles` polls. -/
def tick (fin : Nat → Bool) (h : TaskHandler) : TaskHandler :=
  (h.run_tasks).clean_handles fin

/-- The (never-ending) `loop` of `TaskHandler::start`, viewed as the stream
of handler states at each tick: `startTrace fin h n` is the state after `n`
iterations, where `fin i` is the completion oracle seen by tick `i`'s
prune.  The stream is total: there is a state after every `n`, because the
loop has no exit condition. -/
def startTrace (fin : Nat → Nat → Bool) (h : TaskHandler) : Nat → TaskHandler
  | 0 => h
  | n + 1 => (startTrace fin h n).tick (fin n)

/-- The handles created by draining a queue `ts` with fresh ids starting at
`n`, in order. -/
def spawnAll : List MTask → Nat → List TaskHandle
  | [], _ => []
  | t :: rest, n => TaskHandle.create t n :: spawnAll rest (n + 1)

/-- Enqueue a whole list of tasks by successive `add_task` calls. -/
def enqueueAll (h : TaskHandler) (ts : List MTask) : TaskHandler :=
  ts.foldl add_task h

/-- A concrete task used to instantiate universally quantified results. -/
def taskA : MTask := { data := { name := "A" } }

/-- A second concrete task. -/
def taskB : MTask := { data := { name := "B" } }

/-- A concrete handler state with two live handles (spawn ids 0 and 1),
as produced by enqueueing `taskA`, `taskB` and running one launch cycle. -/
def twoHandleState : TaskHandler :=
  (enqueueAll new [taskA, taskB]).run_tasks

end TaskHandler

/-- The states reachable from a fresh handler (`TaskHandler::new`) by any
interleaving of `add_task` calls and iterations of the run loop.
`Reaches h E` records the handler state `h` together with the list `E` of
all tasks ever enqueued, in order (a ghost history; the oracle passed to a
`tick` step is the completion status the runtime reports to that tick's
prune). -/
inductive Reaches : TaskHandler → List MTask → Prop where
  | init : Reaches TaskHandler.new []
  | add (h : TaskHandler) (E : List MTask) (t : MTask) :
      Reaches h E → Reaches (h.add_task t) (E ++ [t])
  | tick (h : TaskHandler) (E : List MTask) (fin : Nat → Bool) :
      Reaches h E → Reaches (h.tick fin) E

/-! ### Part 2: `src/client_backend/src/utils.rs` -/

/-- A window handle (`HWND`), identified by a numeric id. -/
abbrev HWND := Nat

/-- The Windows API surface used by `utils.rs`, as an environment record:
`pidOf w` is the process id written by `GetWindowThreadProcessId` (0 when
the call yields no pid); `imageFile p` is the process image path reported
by `GetProcessImageFileNameW` for pid `p`, already decoded from its UTF-16
buffer of length `len` (`String::from_utf16_lossy(&buffer[..len])`);
`winText w` is the byte sequence `GetWindowTextA` writes over the caller's
zero-initialised 64-byte buffer.  The `expect` panics on
`OpenProcess`/`CloseHandle` failure are outside the model: the environment
supplies the results of successful calls. -/
structure WinEnv where
  pidOf : HWND → Nat
  imageFile : Nat → String
  winText : HWND → List Nat

/-- The scanning loop of Rust `str::replace` for a nonempty pattern: scan
left to right, replacing each non-overlapping occurrence of `pat` by
`rep`.  `fuel` is an explicit bound on the number of scan steps (one unit
per consumed character, so `fuel ≥ length of the text` suffices); it makes
the recursion structural so the function evaluates by kernel reduction. -/
def replaceGo (pat rep : List Char) : Nat → List Char → List Char
  | _, [] => []
  | 0, s => s
  | fuel + 1, c :: cs =>
    if pat ≠ [] ∧ pat <+: (c :: cs) then
      rep ++ replaceGo pat rep fuel (List.drop pat.length (c :: cs))
    else
      c :: replaceGo pat rep fuel cs

/-- Rust `str::replace` (as used at the single call site
`file_path.replace("\\", "/")`, where the pattern is nonempty). -/
def rustReplace (s pat rep : String) : String :=
  String.mk (replaceGo pat.data rep.data s.data.length s.data)

/-- Rust `str::contains`: the pattern occurs as a contiguous substring. -/
def strContains (s pat : String) : Bool :=
  decide (pat.data <:+: s.data)

/-- The literal pattern of the game check in `is_game`. -/
def steamapps : String :=
  "steamapps"

/-- Embeds `get_file_path_hwnd`: reads the window's owning process id (returning
`None` when it is 0), opens the process, reads its image file name, and
returns the path with every backslash replaced by a forward slash. -/
def get_file_path_hwnd (env : WinEnv) (hwnd : HWND) : Option String :=
  let pid := env.pidOf hwnd
  if pid = 0 then none
  else some (rustReplace (env.imageFile pid) "\\" "/")

/-- Embeds `is_game`: false for a missing handle, false when no file path
resolves, and otherwise reports whether the resolved path contains
`"steamapps"`. -/
def is_game (env : WinEnv) (hwnd : Option HWND) : Bool :=
  match hwnd with
  | none => false
  | some handle =>
    match get_file_path_hwnd env handle with
    | none => false
    | some file_path =>
      if strContains file_path steamapps then true else false

/-- The 64-byte window-title buffer after `GetWindowTextA`: the caller
passes a zero-initialised `[u8; 64]` and the call overwrites a prefix of
it with `env.winText hwnd` (truncated at the buffer size). -/
def titleBuffer (env : WinEnv) (hwnd : HWND) : List Nat :=
  (env.winText hwnd ++ List.replicate 64 0).take 64

/-- Embeds `title.iter().position(|&x| x == 0).map_or(&title[..], |i| &title[..i])`:
the buffer truncated at the first NUL byte (the whole buffer if none). -/
def truncAtNul (buf : List Nat) : List Nat :=
  match buf.findIdx? (fun x => x == 0) with
  | some i => buf.take i
  | none => buf

/-- A UTF-8 continuation byte (`0x80..=0xBF`). -/
def contByte (b : Nat) : Bool :=
  decide (0x80 ≤ b ∧ b ≤ 0xBF)

/-- The admissible first continuation byte after a three-byte leader, per
the UTF-8 validity table used by Rust's `str::from_utf8` (`E0`: `A0..=BF`,
`ED`: `80..=9F`, otherwise `80..=BF`). -/
def cont3First (b c : Nat) : Bool :=
  if b = 0xE0 then decide (0xA0 ≤ c ∧ c ≤ 0xBF)
  else if b = 0xED then decide (0x80 ≤ c ∧ c ≤ 0x9F)
  else contByte c

/-- The admissible first continuation byte after a four-byte leader
(`F0`: `90..=BF`, `F4`: `80..=8F`, otherwise `80..=BF`). -/
def cont4First (b c : Nat) : Bool :=
  if b = 0xF0 then decide (0x90 ≤ c ∧ c ≤ 0xBF)
  else if b = 0xF4 then decide (0x80 ≤ c ∧ c ≤ 0x8F)
  else contByte c

/-- The decoding loop of `String::from_utf8_lossy`, producing the
sequence of decoded code points: each valid UTF-8 sequence decodes to its
code point, and each maximal invalid subpart (an invalid sequence of 1–3
bytes, or an incomplete trailing sequence) is replaced by one U+FFFD
replacement character, exactly as Rust's lossy decoder does.  `fuel`
bounds the number of decoding steps (each step consumes at least one
byte, so `fuel ≥ length of the input` suffices); it makes the recursion
structural so the function evaluates by kernel reduction. -/
def utf8Go : Nat → List Nat → List Nat
  | _, [] => []
  | 0, _ :: _ => []
  | fuel + 1, b :: rest =>
    if b < 0x80 then b :: utf8Go fuel rest
    else if b < 0xC2 then 0xFFFD :: utf8Go fuel rest
    else if b < 0xE0 then
      match rest with
      | [] => [0xFFFD]
      | c1 :: rest2 =>
        if contByte c1 then
          ((b - 0xC0) * 0x40 + (c1 - 0x80)) :: utf8Go fuel rest2
        else 0xFFFD :: utf8Go fuel (c1 :: rest2)
    else if b < 0xF0 then
      match rest with
      | [] => [0xFFFD]
      | c1 :: rest2 =>
        if cont3First b c1 then
          match rest2 with
          | [] => [0xFFFD]
          | c2 :: rest3 =>
            if contByte c2 then
              ((b - 0xE0) * 0x1000 + (c1 - 0x80) * 0x40 + (c2 - 0x80)) ::
                utf8Go fuel rest3
            else 0xFFFD :: utf8Go fuel (c2 :: rest3)
        else 0xFFFD :: utf8Go fuel (c1 :: rest2)
    else if b < 0xF5 then
      match rest with
      | [] => [0xFFFD]
      | c1 :: rest2 =>
        if cont4First b c1 then
          match rest2 with
          | [] => [0xFFFD]
          | c2 :: rest3 =>
            if contByte c2 then
              match rest3 with
              | [] => [0xFFFD]
              | c3 :: rest4 =>
                if contByte c3 then
                  ((b - 0xF0) * 0x40000 + (c1 - 0x80) * 0x1000 +
                    (c2 - 0x80) * 0x40 + (c3 - 0x80)) :: utf8Go fuel rest4
                else 0xFFFD :: utf8Go fuel (c3 :: rest4)
            else 0xFFFD :: utf8Go fuel (c2 :: rest3)
        else 0xFFFD :: utf8Go fuel (c1 :: rest2)
    else 0xFFFD :: utf8Go fuel rest

/-- Runs `String::from_utf8_lossy` on a byte sequence, as its code-point
sequence: the decoding loop run with sufficient fuel. -/
def utf8DecodeLossy (l : List Nat) : List Nat :=
  utf8Go l.length l

/-- The UTF-8 encoding length in bytes of one code point. -/
def cpUtf8Len (c : Nat) : Nat :=
  if c < 0x80 then 1 else if c < 0x800 then 2 else if c < 0x10000 then 3 else 4

/-- The length in bytes of the UTF-8 encoding of a decoded string (Rust
`String::len`). -/
def strBytesLen (s : List Nat) : Nat :=
  (s.map cpUtf8Len).sum

/-- Embeds `hwnd_to_string`: reads the window title into a 64-byte buffer,
truncates it at the first NUL byte, decodes the bytes with
`String::from_utf8_lossy` (represented by its code-point sequence), and
returns `None` iff the decoded title is empty. -/
def hwnd_to_string (env : WinEnv) (hwnd : HWND) : Option (List Nat) :=
  let title := truncAtNul (titleBuffer env hwnd)
  let title_str := utf8DecodeLossy title
  if title_str = [] then none else some title_str

/-- Concrete environment: window owned by pid 7 whose image path lies
under `steamapps` (with backslashes), window title `"AB"`. -/
def envSteam : WinEnv where
  pidOf := fun _ => 7
  imageFile := fun _ => "C:\\steamapps\\common\\game.exe"
  winText := fun _ => [65, 66]

/-- Concrete environment: the window's process id cannot be read. -/
def envNoPid : WinEnv where
  pidOf := fun _ => 0
  imageFile := fun _ => ""
  winText := fun _ => []

/-- Concrete environment: `GetWindowTextA` writes 63 bytes of `0xFF` (a
legal ANSI title that is not valid UTF-8) before the terminating NUL. -/
def envFF : WinEnv where
  pidOf := fun _ => 0
  imageFile := fun _ => ""
  winText := fun _ => List.replicate 63 0xFF

namespace TaskHandler

theorem spawnAll_length (ts : List MTask) (n : Nat) :
    (spawnAll ts n).length = ts.length := by
  induction ts generalizing n with
  | nil => rfl
  | cons t rest ih => simp [spawnAll, ih]

theorem spawnAll_map_meta (ts : List MTask) (n : Nat) :
    (spawnAll ts n).map TaskHandle.task_meta = ts.map MTask.data := by
  induction ts generalizing n with
  | nil => rfl
  | cons t rest ih => simp [spawnAll, TaskHandle.create, ih]

theorem spawnAll_map_handle (ts : List MTask) (n : Nat) :
    (spawnAll ts n).map TaskHandle.handle = List.range' n ts.length := by
  induction ts generalizing n with
  | nil => rfl
  | cons t rest ih => simp [spawnAll, TaskHandle.create, List.range', ih]

theorem drainLoop_eq (ts : List MTask) (hs : List TaskHandle) (n : Nat) :
    drainLoop ts hs n =
      { task_queue := [], handles := hs ++ spawnAll ts n, nextId := n + ts.length } := by
  induction ts generalizing hs n with
  | nil => simp [drainLoop, spawnAll]
  | cons t rest ih => simp [drainLoop, spawnAll, ih]; omega

theorem run_tasks_eq (h : TaskHandler) :
    h.run_tasks =
      { task_queue := [],
        handles := h.handles ++ spawnAll h.task_queue h.nextId,
        nextId := h.nextId + h.task_queue.length } :=
  drainLoop_eq h.task_queue h.handles h.nextId

theorem enqueueAll_eq (h : TaskHandler) (ts : List MTask) :
    enqueueAll h ts =
      { task_queue := h.task_queue ++ ts, handles := h.handles, nextId := h.nextId } := by
  induction ts generalizing h with
  | nil => simp [enqueueAll]
  | cons t rest ih =>
      simp only [enqueueAll, List.foldl_cons] at *
      rw [ih (h.add_task t)]
      simp [add_task]

theorem spawnAll_map_name (ts : List MTask) (n : Nat) :
    (spawnAll ts n).map (fun hd => hd.task_meta.name) =
      ts.map (fun t => t.data.name) := by
  induction ts generalizing n with
  | nil => rfl
  | cons t rest ih => simp [spawnAll, TaskHandle.create, ih]

end TaskHandler

open TaskHandler

/-- C1: for every sequence of `add_task` calls followed by a single
`run_tasks` launch cycle, the pending queue is empty afterwards, the
descriptor names of the active handles are exactly the enqueued tasks'
descriptor names (positionally), and hence each enqueued task has a handle
in the active set with matching descriptor name. -/
theorem C1_launch_cycle (ts : List MTask) :
    ((enqueueAll new ts).run_tasks).task_queue = [] ∧
    ((enqueueAll new ts).run_tasks).handles.map (fun hd => hd.task_meta.name) =
      ts.map (fun t => t.data.name) ∧
    ∀ t ∈ ts, ∃ hd ∈ ((enqueueAll new ts).run_tasks).handles,
      hd.task_meta.name = t.data.name := by
  rw [enqueueAll_eq, run_tasks_eq]
  refine ⟨rfl, ?_, ?_⟩
  · simp [new, spawnAll_map_name]
  · intro t ht
    simp only [new, List.nil_append]
    have hname : t.data.name ∈ (spawnAll ts 0).map (fun hd => hd.task_meta.name) := by
      rw [spawnAll_map_name]
      exact List.mem_map.mpr ⟨t, ht, rfl⟩
    rcases List.mem_map.mp hname with ⟨hd, hmem, heq⟩
    exact ⟨hd, hmem, heq⟩

/-- C1 witness at the concrete sequence `[taskA, taskB]`. -/
theorem C1_launch_cycle_witness :
    ∃ hd ∈ ((enqueueAll new [taskA, taskB]).run_tasks).handles,
      hd.task_meta.name = taskA.data.name :=
  (C1_launch_cycle [taskA, taskB]).2.2 taskA (by simp)

/-- C2: `run_tasks` launches tasks in exact FIFO enqueue order.  From a
fresh handler the resulting active list is `spawnAll ts 0`, whose `k`-th
element carries the `k`-th enqueued task's descriptor and spawn id `k`
(spawn ids grow in spawn order, so lower id = spawned earlier); from an
arbitrary state the new handles are appended after the existing ones in
queue order. -/
theorem C2_fifo_order (ts : List MTask) (h : TaskHandler) :
    ((enqueueAll new ts).run_tasks).handles = spawnAll ts 0 ∧
    (spawnAll ts 0).map TaskHandle.task_meta = ts.map MTask.data ∧
    (spawnAll ts 0).map TaskHandle.handle = List.range' 0 ts.length ∧
    (h.run_tasks).handles = h.handles ++ spawnAll h.task_queue h.nextId := by
  refine ⟨?_, spawnAll_map_meta ts 0, spawnAll_map_handle ts 0, ?_⟩
  · rw [enqueueAll_eq, run_tasks_eq]; simp [new]
  · rw [run_tasks_eq]

/-- C6: pruning is idempotent — with the completion oracle unchanged,
`clean_handles` applied twice equals `clean_handles` applied once. -/
theorem C6_clean_idempotent (fin : Nat → Bool) (h : TaskHandler) :
    (h.clean_handles fin).clean_handles fin = h.clean_handles fin := by
  cases h with
  | mk q hs n =>
    have hfix :
        (hs.filter (fun hd => if fin hd.handle then false else true)).filter
            (fun hd => if fin hd.handle then false else true) =
          hs.filter (fun hd => if fin hd.handle then false else true) :=
      List.filter_eq_self.mpr (fun a ha => (List.mem_filter.mp ha).2)
    simp [TaskHandler.clean_handles, hfix]

/-- C7: `add_task` never fails (it is a total function), leaves the active
set and the fresh-id supply unchanged, keeps every previously queued task
at its position (the old queue is exactly the prefix of the new one), and
appends exactly the given task at the back. -/
theorem C7_add_task_frame (h : TaskHandler) (t : MTask) :
    (h.add_task t).handles = h.handles ∧
    (h.add_task t).nextId = h.nextId ∧
    (h.add_task t).task_queue.take h.task_queue.length = h.task_queue ∧
    (h.add_task t).task_queue.drop h.task_queue.length = [t] ∧
    (h.add_task t).task_queue.length = h.task_queue.length + 1 := by
  refine ⟨rfl, rfl, ?_, ?_, ?_⟩
  · simp [TaskHandler.add_task]
  · simp [TaskHandler.add_task]
  · simp [TaskHandler.add_task]

theorem retain_closure_true_iff (fin : Nat → Bool) (hd : TaskHandle) :
    ((if fin hd.handle then false else true) = true) ↔ fin hd.handle = false := by
  cases hfh : fin hd.handle <;> simp

theorem not_mem_retain_of_finished (fin : Nat → Bool) (hd : TaskHandle)
    (l : List TaskHandle) (hfin : fin hd.handle = true) :
    hd ∉ l.filter (fun hd => if fin hd.handle then false else true) := by
  intro hmem
  have := (List.mem_filter.mp hmem).2
  rw [retain_closure_true_iff] at this
  rw [hfin] at this
  exact Bool.true_eq_false.mp this

theorem count_filter_eq {α : Type} [DecidableEq α] (p : α → Bool) (l : List α) (a : α) :
    (l.filter p).count a = if p a then l.count a else 0 := by
  induction l with
  | nil => simp
  | cons x xs ih =>
      by_cases hxa : x = a
      · subst hxa
        cases hpx : p x <;> simp [List.filter_cons, hpx, List.count_cons, ih]
      · cases hpx : p x <;>
          simp [List.filter_cons, hpx, List.count_cons, ih, hxa]

theorem filter_singleton_out {α : Type} [DecidableEq α] (p : α → Bool) (l : List α) (a : α)
    (hnd : l.Nodup) (hmem : a ∈ l) (hpa : p a = false)
    (hrest : ∀ b ∈ l, b ≠ a → p b = true) :
    l.filter p = l.erase a := by
  induction l with
  | nil => cases hmem
  | cons x xs ih =>
      rcases List.nodup_cons.mp hnd with ⟨hx_notin, hnd_xs⟩
      by_cases hxa : x = a
      · subst hxa
        rw [List.filter_cons_of_neg (by simp [hpa]), List.erase_cons_head]
        exact List.filter_eq_self.mpr
          (fun b hb => hrest b (List.mem_cons_of_mem _ hb)
            (fun hba => hx_notin (hba ▸ hb)))
      · have hmem_xs : a ∈ xs := by
          rcases List.mem_cons.mp hmem with h | h
          · exact absurd h.symm hxa
          · exact h
        rw [List.filter_cons_of_pos (hrest x (List.mem_cons_self x xs) hxa),
          List.erase_cons_tail]
        · rw [ih hnd_xs hmem_xs
            (fun b hb hba => hrest b (List.mem_cons_of_mem _ hb) hba)]
        · simp [hxa]

/-- C3: `clean_handles` retains, in their original relative order (the
result is a sublist of the input), exactly the handles whose
`is_finished()` poll is false: every survivor polls unfinished, every
unfinished handle survives, the multiplicity of every finished handle
drops to zero while unfinished multiplicities are unchanged, and the
pending queue (and fresh-id supply) is untouched. -/
theorem C3_clean_characterization (fin : Nat → Bool) (h : TaskHandler) :
    (h.clean_handles fin).task_queue = h.task_queue ∧
    (h.clean_handles fin).nextId = h.nextId ∧
    (h.clean_handles fin).handles.Sublist h.handles ∧
    (∀ hd ∈ (h.clean_handles fin).handles, fin hd.handle = false) ∧
    (∀ hd ∈ h.handles, fin hd.handle = false →
      hd ∈ (h.clean_handles fin).handles) ∧
    (∀ hd : TaskHandle, (h.clean_handles fin).handles.count hd =
      if fin hd.handle then 0 else h.handles.count hd) := by
  refine ⟨rfl, rfl, List.filter_sublist _, ?_, ?_, ?_⟩
  · intro hd hmem
    have := (List.mem_filter.mp hmem).2
    exact (retain_closure_true_iff fin hd).mp this
  · intro hd hmem hnf
    exact List.mem_filter.mpr ⟨hmem, (retain_closure_true_iff fin hd).mpr hnf⟩
  · intro hd
    rw [show (h.clean_handles fin).handles =
        h.handles.filter (fun hd => if fin hd.handle then false else true) from rfl,
      count_filter_eq]
    cases hfh : fin hd.handle <;> simp [hfh]

/-- C3 witness: on the concrete two-handle state with handle 0 finished,
the prune keeps the queue intact and retains the unfinished handle 1. -/
theorem C3_clean_characterization_witness :
    (twoHandleState.clean_handles (fun i => i == 0)).task_queue =
      twoHandleState.task_queue ∧
    (⟨⟨"B"⟩, 1⟩ : TaskHandle) ∈
      (twoHandleState.clean_handles (fun i => i == 0)).handles := by
  have h := C3_clean_characterization (fun i => i == 0) twoHandleState
  exact ⟨h.1, h.2.2.2.2.1 ⟨⟨"B"⟩, 1⟩ (by decide) (by decide)⟩

/-- C5: if a handle's computation has completed (its `is_finished()` poll
reports true) while it is tracked in the active set, then the very next
prune — equivalently the next full tick — removes it; and when it is the
only completed handle (and the active list has no duplicates), the prune
removes exactly that handle, leaving the others untouched in order, so the
active set shrinks by exactly one. -/
theorem C5_finished_removed_next_prune (fin : Nat → Bool) (h : TaskHandler)
    (hd : TaskHandle) (hmem : hd ∈ h.handles) (hfin : fin hd.handle = true)
    (hnd : h.handles.Nodup)
    (honly : ∀ hd2 ∈ h.handles, fin hd2.handle = true → hd2 = hd) :
    hd ∉ (h.clean_handles fin).handles ∧
    hd ∉ (h.tick fin).handles ∧
    (h.clean_handles fin).handles = h.handles.erase hd ∧
    (h.clean_handles fin).handles.length + 1 = h.handles.length := by
  have hfilter :
      h.handles.filter (fun hd => if fin hd.handle then false else true) =
        h.handles.erase hd := by
    refine filter_singleton_out _ _ _ hnd hmem (by simp [hfin]) ?_
    intro b hb hba
    rcases hfb : fin b.handle with _ | _
    · simp
    · exact absurd (honly b hb hfb) hba
  refine ⟨not_mem_retain_of_finished fin hd _ hfin,
    not_mem_retain_of_finished fin hd _ hfin, hfilter, ?_⟩
  rw [show (h.clean_handles fin).handles =
      h.handles.filter (fun hd => if fin hd.handle then false else true) from rfl,
    hfilter, List.length_erase_of_mem hmem]
  have : 0 < h.handles.length := List.length_pos.mpr (List.ne_nil_of_mem hmem)
  omega

/-- C5 witness: in the concrete two-handle state, with exactly handle 0
finished, the prune removes handle 0 and shrinks the active set from two
handles to one. -/
theorem C5_finished_removed_next_prune_witness :
    (⟨⟨"A"⟩, 0⟩ : TaskHandle) ∉
      (twoHandleState.clean_handles (fun i => i == 0)).handles ∧
    (twoHandleState.clean_handles (fun i => i == 0)).handles.length + 1 =
      twoHandleState.handles.length := by
  have h := C5_finished_removed_next_prune (fun i => i == 0) twoHandleState
    ⟨⟨"A"⟩, 0⟩ (by decide) (by decide) (by decide) (by decide)
  exact ⟨h.1, h.2.2.2⟩

theorem reaches_invariant (h : TaskHandler) (E : List MTask) (hr : Reaches h E) :
    (∀ hd ∈ h.handles, hd.handle < h.nextId ∧ ∃ t ∈ E, hd.task_meta = t.data) ∧
    (h.handles.map TaskHandle.handle).Nodup ∧
    (∀ t ∈ h.task_queue, t ∈ E) ∧
    (E = [] → h.task_queue = [] ∧ h.handles = [] ∧ h.nextId = 0) := by
  induction hr with
  | init => simp [TaskHandler.new]
  | add h E t _ ih =>
      obtain ⟨ih1, ih2, ih3, ih4⟩ := ih
      refine ⟨?_, ih2, ?_, ?_⟩
      · intro hd hmem
        obtain ⟨hlt, t', ht', hmeta⟩ := ih1 hd hmem
        exact ⟨hlt, t', List.mem_append_left _ ht', hmeta⟩
      · intro u hu
        rcases List.mem_append.mp hu with h1 | h1
        · exact List.mem_append_left _ (ih3 u h1)
        · exact List.mem_append_right _ h1
      · intro hE
        simp at hE
  | tick h E fin _ ih =>
      obtain ⟨ih1, ih2, ih3, ih4⟩ := ih
      have hq' : (h.tick fin).task_queue = [] := by
        rw [TaskHandler.tick, run_tasks_eq]; rfl
      have hn' : (h.tick fin).nextId = h.nextId + h.task_queue.length := by
        rw [TaskHandler.tick, run_tasks_eq]; rfl
      have hh' : (h.tick fin).handles =
          (h.handles ++ spawnAll h.task_queue h.nextId).filter
            (fun hd => if fin hd.handle then false else true) := by
        rw [TaskHandler.tick, run_tasks_eq]; rfl
      refine ⟨?_, ?_, ?_, ?_⟩
      · intro hd hmem
        rw [hh'] at hmem
        have hmem2 := (List.mem_filter.mp hmem).1
        rw [hn']
        rcases List.mem_append.mp hmem2 with hin | hin
        · obtain ⟨hlt, t', ht', hmeta⟩ := ih1 hd hin
          exact ⟨by omega, t', ht', hmeta⟩
        · constructor
          · have hmm : hd.handle ∈ (spawnAll h.task_queue h.nextId).map
                TaskHandle.handle := List.mem_map_of_mem _ hin
            rw [spawnAll_map_handle] at hmm
            have := List.mem_range'_1.mp hmm
            omega
          · have hmm : hd.task_meta ∈ (spawnAll h.task_queue h.nextId).map
                TaskHandle.task_meta := List.mem_map_of_mem _ hin
            rw [spawnAll_map_meta] at hmm
            rcases List.mem_map.mp hmm with ⟨t', ht', hmeta⟩
            exact ⟨t', ih3 t' ht', hmeta.symm⟩
      · rw [hh']
        have hsub : (((h.handles ++ spawnAll h.task_queue h.nextId).filter
            (fun hd => if fin hd.handle then false else true)).map
              TaskHandle.handle).Sublist
            ((h.handles ++ spawnAll h.task_queue h.nextId).map TaskHandle.handle) :=
          (List.filter_sublist _).map _
        have hbig : ((h.handles ++ spawnAll h.task_queue h.nextId).map
            TaskHandle.handle).Nodup := by
          rw [List.map_append, spawnAll_map_handle]
          refine List.Nodup.append ih2 (List.nodup_range' _ _) ?_
          intro a ha1 ha2
          rcases List.mem_map.mp ha1 with ⟨hd, hdmem, rfl⟩
          have hlt := (ih1 hd hdmem).1
          have hge := (List.mem_range'_1.mp ha2).1
          omega
        exact List.Nodup.sublist hsub hbig
      · intro t ht
        rw [hq'] at ht
        cases ht
      · intro hE
        obtain ⟨hq0, hh0, hn0⟩ := ih4 hE
        refine ⟨hq', ?_, ?_⟩
        · rw [hh', hq0, hh0, hn0]
          rfl
        · rw [hn', hq0, hn0]
          rfl

/-- C4: in every state reachable from a fresh handler by `add_task` calls
and loop ticks, every active handle carries the descriptor of a task that
was previously enqueued, no spawn event yields two active handles (the
join-handle ids of the active list are pairwise distinct), and if nothing
is ever enqueued the active set stays empty and no spawn ever happens (the
fresh-id supply is still at 0). -/
theorem C4_provenance_no_duplication (h : TaskHandler) (E : List MTask)
    (hr : Reaches h E) :
    (∀ hd ∈ h.handles, ∃ t ∈ E, hd.task_meta = t.data) ∧
    (h.handles.map TaskHandle.handle).Nodup ∧
    (E = [] → h.handles = [] ∧ h.nextId = 0) := by
  obtain ⟨i1, i2, _, i4⟩ := reaches_invariant h E hr
  exact ⟨fun hd hm => (i1 hd hm).2, i2,
    fun hE => ⟨(i4 hE).2.1, (i4 hE).2.2⟩⟩

/-- C4 witness: a concrete reachable state (enqueue `taskA`, one tick with
nothing finished) has pairwise-distinct spawn ids in its active set. -/
theorem C4_provenance_no_duplication_witness :
    ((((TaskHandler.new.add_task taskA).tick (fun _ => false)).handles.map
      TaskHandle.handle)).Nodup :=
  (C4_provenance_no_duplication
    ((TaskHandler.new.add_task taskA).tick (fun _ => false)) ([] ++ [taskA])
    (Reaches.tick _ _ _ (Reaches.add _ _ _ Reaches.init))).2.1

/-- C8: each iteration of the started run loop is exactly `run_tasks`
followed by `clean_handles` followed by the fixed 50 ms sleep: the state at
tick `n + 1` is the prune (with that tick's completion oracle) of the
launch of the state at tick `n`, the pending queue is fully drained by
every iteration, and the idle interval is the constant 50 ms.  The loop
has no exit condition: `startTrace` yields a state for every tick index. -/
theorem C8_loop_iteration_shape (fin : Nat → Nat → Bool) (h : TaskHandler)
    (n : Nat) :
    startTrace fin h (n + 1) =
      ((startTrace fin h n).run_tasks).clean_handles (fin n) ∧
    (startTrace fin h (n + 1)).task_queue = [] ∧
    sleepMillis = 50 := by
  refine ⟨rfl, ?_, rfl⟩
  show ((startTrace fin h n).tick (fin n)).task_queue = []
  rw [TaskHandler.tick, run_tasks_eq]
  rfl

theorem contByte_bounds (c : Nat) (h : contByte c = true) :
    0x80 ≤ c ∧ c ≤ 0xBF := by
  simpa [contByte] using h

theorem cont3First_bounds (b c : Nat) (h : cont3First b c = true) :
    0x80 ≤ c ∧ (b = 0xE0 → 0xA0 ≤ c) := by
  unfold cont3First at h
  by_cases hb : b = 0xE0
  · rw [if_pos hb] at h
    simp at h
    exact ⟨by omega, fun _ => h.1⟩
  · rw [if_neg hb] at h
    by_cases hb2 : b = 0xED
    · rw [if_pos hb2] at h
      simp at h
      exact ⟨h.1, fun he => absurd he hb⟩
    · rw [if_neg hb2] at h
      exact ⟨(contByte_bounds c h).1, fun he => absurd he hb⟩

theorem cont4First_bounds (b c : Nat) (h : cont4First b c = true) :
    0x80 ≤ c ∧ (b = 0xF0 → 0x90 ≤ c) := by
  unfold cont4First at h
  by_cases hb : b = 0xF0
  · rw [if_pos hb] at h
    simp at h
    exact ⟨by omega, fun _ => h.1⟩
  · rw [if_neg hb] at h
    by_cases hb2 : b = 0xF4
    · rw [if_pos hb2] at h
      simp at h
      exact ⟨h.1, fun he => absurd he hb⟩
    · rw [if_neg hb2] at h
      exact ⟨(contByte_bounds c h).1, fun he => absurd he hb⟩

theorem utf8Go_length_le (fuel : Nat) :
    ∀ l : List Nat, (utf8Go fuel l).length ≤ l.length := by
  induction fuel with
  | zero => intro l; cases l <;> simp [utf8Go]
  | succ f ih =>
      intro l
      cases l with
      | nil => simp [utf8Go]
      | cons b rest =>
          simp only [utf8Go]
          by_cases h1 : b < 0x80
          · rw [if_pos h1]
            simp only [List.length_cons]
            exact Nat.add_le_add_right (ih rest) 1
          · rw [if_neg h1]
            by_cases h2 : b < 0xC2
            · rw [if_pos h2]
              simp only [List.length_cons]
              exact Nat.add_le_add_right (ih rest) 1
            · rw [if_neg h2]
              by_cases h3 : b < 0xE0
              · rw [if_pos h3]
                cases rest with
                | nil => simp
                | cons c1 rest2 =>
                    simp only []
                    by_cases hk1 : contByte c1 = true
                    · rw [if_pos hk1]
                      simp only [List.length_cons]
                      have := ih rest2
                      omega
                    · rw [if_neg hk1]
                      simp only [List.length_cons]
                      have := ih (c1 :: rest2)
                      simp only [List.length_cons] at this
                      omega
              · rw [if_neg h3]
                by_cases h4 : b < 0xF0
                · rw [if_pos h4]
                  cases rest with
                  | nil => simp
                  | cons c1 rest2 =>
                      simp only []
                      by_cases hk1 : cont3First b c1 = true
                      · rw [if_pos hk1]
                        cases rest2 with
                        | nil => simp
                        | cons c2 rest3 =>
                            simp only []
                            by_cases hk2 : contByte c2 = true
                            · rw [if_pos hk2]
                              simp only [List.length_cons]
                              have := ih rest3
                              omega
                            · rw [if_neg hk2]
                              simp only [List.length_cons]
                              have := ih (c2 :: rest3)
                              simp only [List.length_cons] at this
                              omega
                      · rw [if_neg hk1]
                        simp only [List.length_cons]
                        have := ih (c1 :: rest2)
                        simp only [List.length_cons] at this
                        omega
                · rw [if_neg h4]
                  by_cases h5 : b < 0xF5
                  · rw [if_pos h5]
                    cases rest with
                    | nil => simp
                    | cons c1 rest2 =>
                        simp only []
                        by_cases hk1 : cont4First b c1 = true
                        · rw [if_pos hk1]
                          cases rest2 with
                          | nil => simp
                          | cons c2 rest3 =>
                              simp only []
                              by_cases hk2 : contByte c2 = true
                              · rw [if_pos hk2]
                                cases rest3 with
                                | nil => simp
                                | cons c3 rest4 =>
                                    simp only []
                                    by_cases hk3 : contByte c3 = true
                                    · rw [if_pos hk3]
                                      simp only [List.length_cons]
                                      have := ih rest4
                                      omega
                                    · rw [if_neg hk3]
                                      simp only [List.length_cons]
                                      have := ih (c3 :: rest4)
                                      simp only [List.length_cons] at this
                                      omega
                              · rw [if_neg hk2]
                                simp only [List.length_cons]
                                have := ih (c2 :: rest3)
                                simp only [List.length_cons] at this
                                omega
                        · rw [if_neg hk1]
                          simp only [List.length_cons]
                          have := ih (c1 :: rest2)
                          simp only [List.length_cons] at this
                          omega
                  · rw [if_neg h5]
                    simp only [List.length_cons]
                    exact Nat.add_le_add_right (ih rest) 1

set_option maxRecDepth 8192 in
theorem utf8Go_no_zero (fuel : Nat) :
    ∀ l : List Nat, (∀ x ∈ l, x ≠ 0) → ∀ c ∈ utf8Go fuel l, c ≠ 0 := by
  induction fuel with
  | zero =>
      intro l hl c hc
      cases l <;> simp [utf8Go] at hc
  | succ f ih =>
      intro l hl c hc
      cases l with
      | nil => simp [utf8Go] at hc
      | cons b rest =>
          have hb0 : b ≠ 0 := hl b (List.mem_cons_self b rest)
          have hrest : ∀ x ∈ rest, x ≠ 0 :=
            fun x hx => hl x (List.mem_cons_of_mem b hx)
          simp only [utf8Go] at hc
          by_cases h1 : b < 0x80
          · rw [if_pos h1] at hc
            rcases List.mem_cons.mp hc with rfl | hc2
            · exact hb0
            · exact ih rest hrest c hc2
          · rw [if_neg h1] at hc
            by_cases h2 : b < 0xC2
            · rw [if_pos h2] at hc
              rcases List.mem_cons.mp hc with rfl | hc2
              · omega
              · exact ih rest hrest c hc2
            · rw [if_neg h2] at hc
              by_cases h3 : b < 0xE0
              · rw [if_pos h3] at hc
                cases rest with
                | nil =>
                    simp at hc
                    omega
                | cons c1 rest2 =>
                    simp only [] at hc
                    have hr2 : ∀ x ∈ rest2, x ≠ 0 :=
                      fun x hx => hrest x (List.mem_cons_of_mem c1 hx)
                    by_cases hk1 : contByte c1 = true
                    · rw [if_pos hk1] at hc
                      rcases List.mem_cons.mp hc with rfl | hc2
                      · have hcb := contByte_bounds c1 hk1
                        omega
                      · exact ih rest2 hr2 c hc2
                    · rw [if_neg hk1] at hc
                      rcases List.mem_cons.mp hc with rfl | hc2
                      · omega
                      · exact ih (c1 :: rest2) hrest c hc2
              · rw [if_neg h3] at hc
                by_cases h4 : b < 0xF0
                · rw [if_pos h4] at hc
                  cases rest with
                  | nil =>
                      simp at hc
                      omega
                  | cons c1 rest2 =>
                      simp only [] at hc
                      have hr2 : ∀ x ∈ rest2, x ≠ 0 :=
                        fun x hx => hrest x (List.mem_cons_of_mem c1 hx)
                      by_cases hk1 : cont3First b c1 = true
                      · rw [if_pos hk1] at hc
                        cases rest2 with
                        | nil =>
                            simp at hc
                            omega
                        | cons c2 rest3 =>
                            simp only [] at hc
                            have hr3 : ∀ x ∈ rest3, x ≠ 0 :=
                              fun x hx => hr2 x (List.mem_cons_of_mem c2 hx)
                            by_cases hk2 : contByte c2 = true
                            · rw [if_pos hk2] at hc
                              rcases List.mem_cons.mp hc with rfl | hc2
                              · have hcb1 := cont3First_bounds b c1 hk1
                                have hcb2 := contByte_bounds c2 hk2
                                rcases Nat.eq_or_lt_of_le (Nat.le_of_not_lt h3)
                                  with heq | hgt
                                · have := hcb1.2 heq.symm
                                  omega
                                · omega
                              · exact ih rest3 hr3 c hc2
                            · rw [if_neg hk2] at hc
                              rcases List.mem_cons.mp hc with rfl | hc2
                              · omega
                              · exact ih (c2 :: rest3) hr2 c hc2
                      · rw [if_neg hk1] at hc
                        rcases List.mem_cons.mp hc with rfl | hc2
                        · omega
                        · exact ih (c1 :: rest2) hrest c hc2
                · rw [if_neg h4] at hc
                  by_cases h5 : b < 0xF5
                  · rw [if_pos h5] at hc
                    cases rest with
                    | nil =>
                        simp at hc
                        omega
                    | cons c1 rest2 =>
                        simp only [] at hc
                        have hr2 : ∀ x ∈ rest2, x ≠ 0 :=
                          fun x hx => hrest x (List.mem_cons_of_mem c1 hx)
                        by_cases hk1 : cont4First b c1 = true
                        · rw [if_pos hk1] at hc
                          cases rest2 with
                          | nil =>
                              simp at hc
                              omega
                          | cons c2 rest3 =>
                              simp only [] at hc
                              have hr3 : ∀ x ∈ rest3, x ≠ 0 :=
                                fun x hx => hr2 x (List.mem_cons_of_mem c2 hx)
                              by_cases hk2 : contByte c2 = true
                              · rw [if_pos hk2] at hc
                                cases rest3 with
                                | nil =>
                                    simp at hc
                                    omega
                                | cons c3 rest4 =>
                                    simp only [] at hc
                                    have hr4 : ∀ x ∈ rest4, x ≠ 0 :=
                                      fun x hx => hr3 x (List.mem_cons_of_mem c3 hx)
                                    by_cases hk3 : contByte c3 = true
                                    · rw [if_pos hk3] at hc
                                      rcases List.mem_cons.mp hc with rfl | hc2
                                      · have hcb1 := cont4First_bounds b c1 hk1
                                        have hcb3 := contByte_bounds c3 hk3
                                        rcases Nat.eq_or_lt_of_le
                                          (Nat.le_of_not_lt h4) with heq | hgt
                                        · have := hcb1.2 heq.symm
                                          omega
                                        · omega
                                      · exact ih rest4 hr4 c hc2
                                    · rw [if_neg hk3] at hc
                                      rcases List.mem_cons.mp hc with rfl | hc2
                                      · omega
                                      · exact ih (c3 :: rest4) hr3 c hc2
                              · rw [if_neg hk2] at hc
                                rcases List.mem_cons.mp hc with rfl | hc2
                                · omega
                                · exact ih (c2 :: rest3) hr2 c hc2
                        · rw [if_neg hk1] at hc
                          rcases List.mem_cons.mp hc with rfl | hc2
                          · omega
                          · exact ih (c1 :: rest2) hrest c hc2
                  · rw [if_neg h5] at hc
                    rcases List.mem_cons.mp hc with rfl | hc2
                    · omega
                    · exact ih rest hrest c hc2

theorem utf8Go_succ_ne_nil (f : Nat) (b : Nat) (rest : List Nat) :
    utf8Go (f + 1) (b :: rest) ≠ [] := by
  simp only [utf8Go]
  repeat' split
  all_goals simp

theorem utf8DecodeLossy_eq_nil_iff (l : List Nat) :
    utf8DecodeLossy l = [] ↔ l = [] := by
  cases l with
  | nil => simp [utf8DecodeLossy, utf8Go]
  | cons b rest =>
      constructor
      · intro h
        exact absurd h (utf8Go_succ_ne_nil rest.length b rest)
      · intro h
        cases h

theorem utf8DecodeLossy_length_le (l : List Nat) :
    (utf8DecodeLossy l).length ≤ l.length :=
  utf8Go_length_le l.length l

theorem utf8DecodeLossy_no_zero (l : List Nat) (hl : ∀ x ∈ l, x ≠ 0) :
    ∀ c ∈ utf8DecodeLossy l, c ≠ 0 :=
  utf8Go_no_zero l.length l hl

theorem truncAtNul_cons_zero (ys : List Nat) : truncAtNul (0 :: ys) = [] := by
  unfold truncAtNul
  rw [List.findIdx?_cons]
  simp

theorem truncAtNul_cons_pos (y : Nat) (ys : List Nat) (hy : y ≠ 0) :
    truncAtNul (y :: ys) = y :: truncAtNul ys := by
  unfold truncAtNul
  rw [List.findIdx?_cons]
  have hyb : (y == 0) = false := by simp [hy]
  rw [hyb, List.findIdx?_succ]
  cases hf : List.findIdx? (fun x => x == 0) ys with
  | none => simp [hf]
  | some i => simp [hf, List.take_succ_cons]

theorem truncAtNul_no_zero (buf : List Nat) : ∀ x ∈ truncAtNul buf, x ≠ 0 := by
  induction buf with
  | nil =>
      intro x hx
      simp [truncAtNul] at hx
  | cons y ys ih =>
      by_cases hy : y = 0
      · subst hy
        rw [truncAtNul_cons_zero]
        intro x hx
        cases hx
      · rw [truncAtNul_cons_pos y ys hy]
        intro x hx
        rcases List.mem_cons.mp hx with rfl | hx2
        · exact hy
        · exact ih x hx2

theorem truncAtNul_length_le (buf : List Nat) :
    (truncAtNul buf).length ≤ buf.length := by
  unfold truncAtNul
  cases hf : buf.findIdx? (fun x => x == 0) with
  | none => exact Nat.le_refl _
  | some i => simp [List.length_take]

theorem titleBuffer_length (env : WinEnv) (w : HWND) :
    (titleBuffer env w).length = 64 := by
  unfold titleBuffer
  rw [List.length_take, List.length_append, List.length_replicate]
  omega

/-- C9: `is_game` returns false on a missing window handle; the file path
fails to resolve exactly when the window's process id reads as 0, and then
`is_game` is false; and on a resolved path — which is exactly the process
image path with every backslash normalised to a forward slash — `is_game`
returns true iff the path contains the substring `"steamapps"`. -/
theorem C9_is_game_characterization (env : WinEnv) (w : HWND) :
    is_game env none = false ∧
    (get_file_path_hwnd env w = none ↔ env.pidOf w = 0) ∧
    (get_file_path_hwnd env w = none → is_game env (some w) = false) ∧
    (∀ fp, get_file_path_hwnd env w = some fp →
      fp = rustReplace (env.imageFile (env.pidOf w)) "\\" "/" ∧
      (is_game env (some w) = true ↔ strContains fp steamapps = true)) := by
  refine ⟨rfl, ?_, ?_, ?_⟩
  · constructor
    · intro hn
      by_contra hp
      simp [get_file_path_hwnd, hp] at hn
    · intro hp
      simp [get_file_path_hwnd, hp]
  · intro hn
    simp [is_game, hn]
  · intro fp hfp
    have hp : ¬ env.pidOf w = 0 := by
      intro hp0
      simp [get_file_path_hwnd, hp0] at hfp
    have hfp2 : fp = rustReplace (env.imageFile (env.pidOf w)) "\\" "/" := by
      simp [get_file_path_hwnd, hp] at hfp
      exact hfp.symm
    refine ⟨hfp2, ?_⟩
    simp only [is_game, hfp]
    cases hs : strContains fp steamapps <;> simp [hs]

/-- C9 witness: a window owned by a Steam process is reported as a game
(the backslashes of the image path are normalised first), and a window
whose process id cannot be read is not. -/
theorem C9_is_game_characterization_witness :
    is_game envSteam (some 3) = true ∧ is_game envNoPid (some 3) = false := by
  constructor
  · have h := (C9_is_game_characterization envSteam 3).2.2.2
      (rustReplace (envSteam.imageFile (envSteam.pidOf 3)) "\\" "/") (by decide)
    exact h.2.mpr (by decide)
  · exact (C9_is_game_characterization envNoPid 3).2.2.1 (by decide)

set_option maxRecDepth 100000 in
/-- C10 counterexample: with a 63-byte ANSI window title of `0xFF` bytes
(NUL-terminated inside the 64-byte buffer, as `GetWindowTextA`
guarantees), `hwnd_to_string` returns the 63-character string
`"�" * 63`, whose UTF-8 encoding (Rust `String::len`) is 189 bytes —
strictly more than 64 bytes, refuting "at most 64 bytes long". -/
theorem C10_hwnd_to_string_counterexample :
    hwnd_to_string envFF 0 = some (List.replicate 63 0xFFFD) ∧
    strBytesLen (List.replicate 63 0xFFFD) = 189 := by
  constructor
  · decide
  · decide

/-- C10 (amended): `hwnd_to_string` never returns `Some` of an empty
string; it returns `None` exactly when the title extracted from the
64-byte buffer (truncated at the first NUL byte) is empty; and any
returned string is the lossy UTF-8 decoding of that NUL-truncated title,
contains no NUL character, and is at most 64 characters long (it decodes
at most 64 bytes of title data, though its own UTF-8 byte length can
exceed 64). -/
theorem C10_hwnd_to_string_amended (env : WinEnv) (w : HWND) :
    (∀ s, hwnd_to_string env w = some s → s ≠ []) ∧
    (hwnd_to_string env w = none ↔ truncAtNul (titleBuffer env w) = []) ∧
    (∀ s, hwnd_to_string env w = some s →
      s = utf8DecodeLossy (truncAtNul (titleBuffer env w)) ∧
      (0 : Nat) ∉ s ∧ s.length ≤ 64) := by
  have hdec : hwnd_to_string env w =
      if utf8DecodeLossy (truncAtNul (titleBuffer env w)) = [] then none
      else some (utf8DecodeLossy (truncAtNul (titleBuffer env w))) := rfl
  by_cases he : utf8DecodeLossy (truncAtNul (titleBuffer env w)) = []
  · rw [hdec, if_pos he]
    refine ⟨?_, ?_, ?_⟩
    · intro s hs
      exact Option.noConfusion hs
    · exact ⟨fun _ => (utf8DecodeLossy_eq_nil_iff _).mp he, fun _ => rfl⟩
    · intro s hs
      exact Option.noConfusion hs
  · rw [hdec, if_neg he]
    refine ⟨?_, ?_, ?_⟩
    · intro s hs
      have hs2 : utf8DecodeLossy (truncAtNul (titleBuffer env w)) = s := by
        injection hs
      rw [← hs2]
      exact he
    · constructor
      · intro h
        simp at h
      · intro htr
        exact ((he ((utf8DecodeLossy_eq_nil_iff _).mpr htr)).elim)
    · intro s hs
      have hs2 : utf8DecodeLossy (truncAtNul (titleBuffer env w)) = s := by
        injection hs
      refine ⟨hs2.symm, ?_, ?_⟩
      · intro h0
        exact utf8DecodeLossy_no_zero _ (truncAtNul_no_zero _) 0 (hs2 ▸ h0) rfl
      · rw [← hs2]
        calc (utf8DecodeLossy (truncAtNul (titleBuffer env w))).length
            ≤ (truncAtNul (titleBuffer env w)).length :=
              utf8DecodeLossy_length_le _
          _ ≤ (titleBuffer env w).length := truncAtNul_length_le _
          _ = 64 := titleBuffer_length env w

/-- C10 (amended) witness: a two-byte ASCII title round-trips, is
non-empty, NUL-free, and within the 64-character bound. -/
theorem C10_hwnd_to_string_amended_witness :
    hwnd_to_string envSteam 5 = some [65, 66] ∧
    (0 : Nat) ∉ ([65, 66] : List Nat) ∧ ([65, 66] : List Nat).length ≤ 64 := by
  have h := (C10_hwnd_to_string_amended envSteam 5).2.2 [65, 66] (by decide)
  refine ⟨by decide, ?_, ?_⟩
  · exact h.2.1
  · exact h.2.2

end MacroScale
